import Mathlib

/-!
Shallow embedding of the `meal_randomizer` program (src/main.rs).

The program loads a directory of YAML recipe files, filters them by
season/ethnicity tag sets, and samples a requested number of matching
recipes without replacement using rand's reservoir-based
`IteratorRandom::choose_multiple`, driven by `thread_rng`.

Modelling conventions:
* `PathBuf` is a `String`; the `HashMap<PathBuf, Recipe>` is an
  association list in its (unspecified) iteration order; the two
  `HashSet` filters are `Finset`s (only membership is ever used).
* The random number generator is an explicit list of draws: the value
  rand's `gen_range(0..i + 1 + amount)` returns at each step of the
  reservoir loop.
* Fallible loading (`unwrap` panics on I/O or serde errors) is
  `Except String`.
-/

/-- The `SeasonFilter` enum of main.rs (serde `rename_all = "snake_case"`). -/
inductive SeasonFilter where
  | Any
  | Winter
  | Spring
  | Summer
  | Fall
  deriving DecidableEq

/-- The `EthnicityFilter` enum of main.rs.  Note the source really spells the
variant `Mediteranean` (single `r`). -/
inductive EthnicityFilter where
  | Any
  | American
  | Chinese
  | EasternEuropean
  | Ethiopian
  | French
  | Indian
  | Japanese
  | Mediteranean
  | Mexican
  | Spanish
  deriving DecidableEq

/-- External spelling of a season tag in a recipe file, per serde's
`rename_all = "snake_case"` on `SeasonFilter`. -/
def seasonToTag : SeasonFilter → String
  | SeasonFilter.Any => "any"
  | SeasonFilter.Winter => "winter"
  | SeasonFilter.Spring => "spring"
  | SeasonFilter.Summer => "summer"
  | SeasonFilter.Fall => "fall"

/-- Deserialization of a season tag from a recipe file: serde accepts exactly
the snake_case variant names and rejects anything else. -/
def seasonFromTag (s : String) : Option SeasonFilter :=
  if s = "any" then some SeasonFilter.Any
  else if s = "winter" then some SeasonFilter.Winter
  else if s = "spring" then some SeasonFilter.Spring
  else if s = "summer" then some SeasonFilter.Summer
  else if s = "fall" then some SeasonFilter.Fall
  else none

/-- External spelling of an ethnicity tag in a recipe file, per serde's
`rename_all = "snake_case"` on `EthnicityFilter`: `EasternEuropean` becomes
`eastern_european` (snake case, not kebab case) and `Mediteranean` becomes
`mediteranean` (the source's spelling). -/
def ethnicityToTag : EthnicityFilter → String
  | EthnicityFilter.Any => "any"
  | EthnicityFilter.American => "american"
  | EthnicityFilter.Chinese => "chinese"
  | EthnicityFilter.EasternEuropean => "eastern_european"
  | EthnicityFilter.Ethiopian => "ethiopian"
  | EthnicityFilter.French => "french"
  | EthnicityFilter.Indian => "indian"
  | EthnicityFilter.Japanese => "japanese"
  | EthnicityFilter.Mediteranean => "mediteranean"
  | EthnicityFilter.Mexican => "mexican"
  | EthnicityFilter.Spanish => "spanish"

/-- Deserialization of an ethnicity tag from a recipe file: serde accepts
exactly the snake_case variant names and rejects anything else. -/
def ethnicityFromTag (s : String) : Option EthnicityFilter :=
  if s = "any" then some EthnicityFilter.Any
  else if s = "american" then some EthnicityFilter.American
  else if s = "chinese" then some EthnicityFilter.Chinese
  else if s = "eastern_european" then some EthnicityFilter.EasternEuropean
  else if s = "ethiopian" then some EthnicityFilter.Ethiopian
  else if s = "french" then some EthnicityFilter.French
  else if s = "indian" then some EthnicityFilter.Indian
  else if s = "japanese" then some EthnicityFilter.Japanese
  else if s = "mediteranean" then some EthnicityFilter.Mediteranean
  else if s = "mexican" then some EthnicityFilter.Mexican
  else if s = "spanish" then some EthnicityFilter.Spanish
  else none

/-- The `Recipe` struct of main.rs. -/
structure Recipe where
  name : String
  seasons : List SeasonFilter
  ethnicities : List EthnicityFilter
  ingredients : List String
  steps : List String
  deriving DecidableEq

/-- Result of reading and deserializing one file: either a well-formed
recipe document, or a file whose read or YAML/schema parse fails (the
`unwrap`s in `Recipes::from_args` panic on the latter). -/
inductive FileData where
  | wellFormed (r : Recipe)
  | malformed
  deriving DecidableEq

/-- Rust's `Path::ends_with` compares whole path components, not string
suffixes.  For the single-component pattern `".yaml"` it is true iff the
final component of the path — the file name, since the entries come from
`read_dir` — is literally equal to the pattern.  So `"recipe.yaml"` does
NOT satisfy `path.ends_with(".yaml")`; only a file literally named
`".yaml"` does. -/
def path_ends_with (file_name pattern : String) : Bool :=
  file_name == pattern

/-- The loading loop of `Recipes::from_args`: a directory listing is a list
of (file name, file data) entries; entries passing the extension check are
parsed and inserted keyed by path, a failing parse aborts the whole load
(`unwrap` panic), and everything else is skipped. -/
def from_args : List (String × FileData) → Except String (List (String × Recipe))
  | [] => Except.ok []
  | (name, data) :: rest =>
    if path_ends_with name ".yaml" || path_ends_with name ".yml" then
      match data with
      | FileData.wellFormed r =>
        match from_args rest with
        | Except.ok m => Except.ok ((name, r) :: m)
        | Except.error e => Except.error e
      | FileData.malformed => Except.error "parse failure"
    else
      from_args rest

/-- The `Recipes` struct of main.rs: the loaded map (in iteration order)
plus the two filter sets. -/
structure Recipes where
  inner : List (String × Recipe)
  season_filter : Finset SeasonFilter
  ethnicity_filter : Finset EthnicityFilter

/-- `Recipes::passes_filters`: the recipe passes iff it passes the ethnicity
axis and the season axis, where each axis passes iff the filter set contains
the wildcard `Any` or some declared tag is a member of the filter set. -/
def passes_filters (self : Recipes) (recipe : Recipe) : Bool :=
  let passes_ethnicity_filter :=
    decide (EthnicityFilter.Any ∈ self.ethnicity_filter)
      || recipe.ethnicities.any (fun e => decide (e ∈ self.ethnicity_filter))
  let passes_season_filter :=
    decide (SeasonFilter.Any ∈ self.season_filter)
      || recipe.seasons.any (fun e => decide (e ∈ self.season_filter))
  passes_ethnicity_filter && passes_season_filter

/-- One step of rand's reservoir loop for `IteratorRandom::choose_multiple`:
`let k = rng.gen_range(0..i + 1 + amount); if let Some(slot) = reservoir.get_mut(k) { *slot = elem }`.
`j` is the drawn index, `a` the incoming element. -/
def rstep {α : Type} (res : List α) (j : ℕ) (a : α) : List α :=
  if j < res.length then res.set j a else res

/-- The reservoir loop: fold `rstep` over the remaining elements, consuming
one random draw per element.  (If the draw list runs dry the reservoir is
returned as is; all theorems below either need no draws or quantify over
draw lists of matching length.) -/
def rrun {α : Type} : List α → List α → List ℕ → List α
  | res, [], _ => res
  | res, _ :: _, [] => res
  | res, a :: l, j :: d => rrun (rstep res j a) l d

/-- The candidate list built by `Recipes::randomly_select_recipes`:
the loaded pairs, in map iteration order, that pass the filters. -/
def candidate_keys (self : Recipes) : List (String × Recipe) :=
  self.inner.filter (fun pr => passes_filters self pr.2)

/-- `num_to_select` of `Recipes::randomly_select_recipes`: the candidate
count when fewer candidates than requested, else the requested count. -/
def num_to_select (self : Recipes) (num_recipes : ℕ) : ℕ :=
  if (candidate_keys self).length < num_recipes then
    (candidate_keys self).length
  else num_recipes

/-- `Recipes::randomly_select_recipes`: build the candidate list, clamp the
requested count, sample that many via rand's reservoir (`choose_multiple`
seeds the reservoir with the first `num_to_select` candidates and runs the
replacement loop over the rest, with `draws` the successive `gen_range`
results), and return the selected paths. -/
def randomly_select_recipes (self : Recipes) (num_recipes : ℕ)
    (draws : List ℕ) : List String :=
  let keys := candidate_keys self
  let k := num_to_select self num_recipes
  (rrun (keys.take k) (keys.drop k) draws).map Prod.fst

/-- A concrete well-formed recipe used as witness data. -/
def borscht : Recipe :=
  { name := "borscht"
    seasons := [SeasonFilter.Winter]
    ethnicities := [EthnicityFilter.EasternEuropean]
    ingredients := ["beets"]
    steps := ["simmer"] }

/-- A second concrete recipe used as witness data. -/
def tacos : Recipe :=
  { name := "tacos"
    seasons := [SeasonFilter.Summer]
    ethnicities := [EthnicityFilter.Mexican]
    ingredients := ["tortillas"]
    steps := ["assemble"] }

/-- A recipe tagged with the wildcard `Any` as its own season tag. -/
def anySeasonRecipe : Recipe :=
  { name := "allseason"
    seasons := [SeasonFilter.Any]
    ethnicities := [EthnicityFilter.American]
    ingredients := []
    steps := [] }

/-- Witness configuration: both recipes loaded, both filter axes wildcard. -/
def demoRecipes : Recipes :=
  { inner := [("borscht.yaml", borscht), ("tacos.yaml", tacos)]
    season_filter := {SeasonFilter.Any}
    ethnicity_filter := {EthnicityFilter.Any} }

/-- The same loaded contents as `demoRecipes` but presented in the other
map iteration order. -/
def demoRecipesSwapped : Recipes :=
  { inner := [("tacos.yaml", tacos), ("borscht.yaml", borscht)]
    season_filter := {SeasonFilter.Any}
    ethnicity_filter := {EthnicityFilter.Any} }

/-- Witness configuration with an empty season filter set. -/
def emptySeasonRecipes : Recipes :=
  { inner := [("borscht.yaml", borscht), ("tacos.yaml", tacos)]
    season_filter := ∅
    ethnicity_filter := {EthnicityFilter.Any} }

/-- C1: a recipe passes `passes_filters` iff both axes pass, where an axis
passes iff its configured filter set contains the wildcard `Any` or the
recipe declares at least one tag belonging to the filter set. -/
theorem passes_filters_axes (self : Recipes) (r : Recipe) :
    passes_filters self r = true ↔
      ((EthnicityFilter.Any ∈ self.ethnicity_filter ∨
          ∃ t ∈ r.ethnicities, t ∈ self.ethnicity_filter) ∧
        (SeasonFilter.Any ∈ self.season_filter ∨
          ∃ t ∈ r.seasons, t ∈ self.season_filter)) := by
  simp [passes_filters, List.any_eq_true]

/-- Witness configuration whose season filter is exactly `{Winter}`. -/
def winterFilterRecipes : Recipes :=
  { inner := [("allseason.yaml", anySeasonRecipe)]
    season_filter := {SeasonFilter.Winter}
    ethnicity_filter := {EthnicityFilter.Any} }

/-- A recipe tagged with the wildcard `Any` as its own ethnicity tag. -/
def anyEthnicityRecipe : Recipe :=
  { name := "alleth"
    seasons := [SeasonFilter.Winter]
    ethnicities := [EthnicityFilter.Any]
    ingredients := []
    steps := [] }

/-- Witness configuration whose ethnicity filter is exactly `{French}`. -/
def frenchFilterRecipes : Recipes :=
  { inner := [("alleth.yaml", anyEthnicityRecipe)]
    season_filter := {SeasonFilter.Any}
    ethnicity_filter := {EthnicityFilter.French} }

/-- C3: if the configured filter set of either axis is empty (so the
wildcard is absent), no recipe passes the predicate and the selector
returns the empty list for every request and every random trace. -/
theorem empty_axis_filters_nothing (self : Recipes)
    (h : self.season_filter = ∅ ∨ self.ethnicity_filter = ∅) :
    (∀ r, passes_filters self r = false) ∧
      ∀ n d, randomly_select_recipes self n d = [] := by
  have hp : ∀ r, passes_filters self r = false := by
    intro r
    rcases h with h | h <;> simp [passes_filters, h]
  have hkeys : candidate_keys self = [] := by
    simp only [candidate_keys, List.filter_eq_nil_iff]
    intro pr _
    simp [hp pr.2]
  refine ⟨hp, fun n d => ?_⟩
  simp [randomly_select_recipes, hkeys, rrun]

/-- C3 witness: under an empty season filter the concrete collection
rejects `borscht` and the selector returns no recipes. -/
theorem empty_axis_filters_nothing_witness :
    passes_filters emptySeasonRecipes borscht = false ∧
      randomly_select_recipes emptySeasonRecipes 3 [0] = [] :=
  ⟨(empty_axis_filters_nothing emptySeasonRecipes (Or.inl rfl)).1 borscht,
    (empty_axis_filters_nothing emptySeasonRecipes (Or.inl rfl)).2 3 [0]⟩

/-- C10: the wildcard is special only on the filter side, on both axes: a
recipe carrying `Any` among its own tags is not automatically visible.
A recipe tagged `seasons = [any]` fails the season filter set `{Winter}`
and its season axis only passes when the season filter set itself contains
`Any`; symmetrically, a recipe tagged `ethnicities = [any]` fails the
ethnicity filter set `{French}` and its ethnicity axis only passes when
the ethnicity filter set itself contains `Any`. -/
theorem any_tag_is_not_recipe_side_wildcard (self : Recipes) (r : Recipe) :
    (r.seasons = [SeasonFilter.Any] →
      (self.season_filter = {SeasonFilter.Winter} →
        passes_filters self r = false) ∧
      (passes_filters self r = true →
        SeasonFilter.Any ∈ self.season_filter)) ∧
    (r.ethnicities = [EthnicityFilter.Any] →
      (self.ethnicity_filter = {EthnicityFilter.French} →
        passes_filters self r = false) ∧
      (passes_filters self r = true →
        EthnicityFilter.Any ∈ self.ethnicity_filter)) := by
  constructor
  · intro hr
    constructor
    · intro h
      simp [passes_filters, hr, h]
    · intro h
      simp [passes_filters, hr] at h
      exact h.2
  · intro hr
    constructor
    · intro h
      simp [passes_filters, hr, h]
    · intro h
      simp [passes_filters, hr] at h
      exact h.1

/-- C10 witness: the concrete recipe tagged `seasons = [any]` fails the
concrete `{Winter}` season filter, and the concrete recipe tagged
`ethnicities = [any]` fails the concrete `{French}` ethnicity filter. -/
theorem any_tag_is_not_recipe_side_wildcard_witness :
    passes_filters winterFilterRecipes anySeasonRecipe = false ∧
      passes_filters frenchFilterRecipes anyEthnicityRecipe = false :=
  ⟨((any_tag_is_not_recipe_side_wildcard winterFilterRecipes
      anySeasonRecipe).1 rfl).1 rfl,
    ((any_tag_is_not_recipe_side_wildcard frenchFilterRecipes
      anyEthnicityRecipe).2 rfl).1 rfl⟩

/-- C2: evaluation of the loader at the failing input.  The file name
`recipe.yaml` does end with the extension `.yaml` in the string sense the
spec describes, yet `from_args` skips it — `Path::ends_with` compares whole
path components — so the well-formed recipe does not appear and the load
returns an empty collection (an empty directory also yields an empty
collection). -/
theorem yaml_named_file_skipped :
    "recipe" ++ ".yaml" = "recipe.yaml" ∧
      from_args [("recipe.yaml", FileData.wellFormed borscht)] = Except.ok [] ∧
      from_args ([] : List (String × FileData)) = Except.ok [] := by
  refine ⟨rfl, rfl, rfl⟩

/-- C6: evaluation of the loader at the failing input.  A malformed file
named `bad.yaml` (which ends with `.yaml` in the string sense) is silently
skipped and the load succeeds with an empty collection instead of aborting;
only files literally named `.yaml`/`.yml` are parsed, and for those a parse
failure is indeed fatal with no partial result. -/
theorem malformed_yaml_file_not_fatal :
    "bad" ++ ".yaml" = "bad.yaml" ∧
      from_args [("bad.yaml", FileData.malformed)] = Except.ok [] ∧
      from_args [(".yaml", FileData.malformed), (".yml", FileData.wellFormed borscht)] =
        Except.error "parse failure" := by
  refine ⟨rfl, rfl, rfl⟩

/-- C7 counterexample: the kebab-case spellings the claim lists are rejected
by the recipe-file tag parser (serde uses `rename_all = "snake_case"`, and
the source spells the variant `Mediteranean`), so parsing `eastern-european`
(or `mediterranean`) from a recipe file does not yield a variant. -/
theorem kebab_tag_rejected :
    ethnicityFromTag "eastern-european" = none ∧
      ethnicityFromTag "mediterranean" = none := by
  refine ⟨rfl, rfl⟩

/-- C7 amended: recipe-file tag spellings are the snake_case variant names
(`eastern_european`, `mediteranean`, `any`, ...); parsing the snake_case
spelling of each variant yields exactly that variant, totally over both
enumerations (the mapping round-trips with the external name). -/
theorem tag_round_trip :
    (∀ s : SeasonFilter, seasonFromTag (seasonToTag s) = some s) ∧
      ∀ e : EthnicityFilter, ethnicityFromTag (ethnicityToTag e) = some e := by
  constructor
  · intro s; cases s <;> rfl
  · intro e; cases e <;> rfl

/-- The reservoir never changes length: `rstep` only ever overwrites a slot. -/
theorem rrun_length {α : Type} (res l : List α) (d : List ℕ) :
    (rrun res l d).length = res.length := by
  induction l generalizing res d with
  | nil => simp [rrun]
  | cons a l ih =>
    cases d with
    | nil => simp [rrun]
    | cons j d =>
      simp only [rrun]
      rw [ih]
      unfold rstep
      split <;> simp

/-- Every element of the final reservoir is an initial reservoir element or
a processed element. -/
theorem mem_of_mem_rrun {α : Type} {res l : List α} {d : List ℕ} {x : α}
    (h : x ∈ rrun res l d) : x ∈ res ∨ x ∈ l := by
  induction l generalizing res d with
  | nil => simp only [rrun] at h; exact Or.inl h
  | cons a l ih =>
    cases d with
    | nil => simp only [rrun] at h; exact Or.inl h
    | cons j d =>
      simp only [rrun] at h
      rcases ih h with h1 | h1
      · unfold rstep at h1
        split at h1
        · rcases List.mem_or_eq_of_mem_set h1 with h2 | h2
          · exact Or.inl h2
          · exact Or.inr (by simp [h2])
        · exact Or.inl h1
      · exact Or.inr (List.mem_cons_of_mem _ h1)

/-- Overwriting a slot with an element not present in the list preserves
distinctness. -/
theorem nodup_set_of_not_mem {α : Type} {res : List α} {a : α} (j : ℕ)
    (hres : res.Nodup) (ha : a ∉ res) : (res.set j a).Nodup := by
  induction res generalizing j with
  | nil => simp
  | cons b rs ih =>
    rcases List.nodup_cons.mp hres with ⟨hb, hrs⟩
    have ha1 : a ≠ b := fun h => ha (by simp [h])
    have ha2 : a ∉ rs := fun h => ha (List.mem_cons_of_mem _ h)
    cases j with
    | zero =>
      exact List.nodup_cons.mpr ⟨ha2, hrs⟩
    | succ j =>
      refine List.nodup_cons.mpr ⟨?_, ih j hrs ha2⟩
      intro hmem
      rcases List.mem_or_eq_of_mem_set hmem with h | h
      · exact hb h
      · exact ha1 h.symm

/-- If the initial reservoir is duplicate-free, the processed elements are
duplicate-free, and the two are disjoint, the final reservoir is
duplicate-free. -/
theorem rrun_nodup {α : Type} {res l : List α} {d : List ℕ}
    (hres : res.Nodup) (hl : l.Nodup) (hdisj : ∀ x ∈ l, x ∉ res) :
    (rrun res l d).Nodup := by
  induction l generalizing res d with
  | nil => simpa [rrun]
  | cons a l ih =>
    cases d with
    | nil => simpa [rrun]
    | cons j d =>
      simp only [rrun]
      rcases List.nodup_cons.mp hl with ⟨hal, hl2⟩
      have ha : a ∉ res := hdisj a (by simp)
      have hres2 : (rstep res j a).Nodup := by
        unfold rstep; split
        · exact nodup_set_of_not_mem j hres ha
        · exact hres
      refine ih hres2 hl2 ?_
      intro x hx hmem
      have hx2 : x ∈ res ∨ x = a := by
        unfold rstep at hmem
        split at hmem
        · exact List.mem_or_eq_of_mem_set hmem
        · exact Or.inl hmem
      rcases hx2 with h | h
      · exact hdisj x (List.mem_cons_of_mem _ hx) h
      · subst h; exact hal hx

/-- The reservoir loop commutes with mapping a function over the elements. -/
theorem rrun_map {α β : Type} (f : α → β) (res l : List α) (d : List ℕ) :
    (rrun res l d).map f = rrun (res.map f) (l.map f) d := by
  induction l generalizing res d with
  | nil => simp [rrun]
  | cons a l ih =>
    cases d with
    | nil => simp [rrun]
    | cons j d =>
      simp only [rrun, List.map_cons]
      rw [ih]
      congr 1
      by_cases hj : j < res.length
      · simp [rstep, hj, List.map_set]
      · simp [rstep, hj]

/-- The clamped count is at most the candidate count. -/
theorem num_to_select_le (self : Recipes) (n : ℕ) :
    num_to_select self n ≤ (candidate_keys self).length := by
  unfold num_to_select; split <;> omega

/-- C4: the selection returns exactly `min(requested, candidates)` recipes,
and when the request is at least the candidate count it returns every
candidate exactly once (equal as sets and duplicate-free), not an error. -/
theorem select_count_min (self : Recipes) (n : ℕ) (d : List ℕ)
    (hkeys : (self.inner.map Prod.fst).Nodup) :
    (randomly_select_recipes self n d).length = min n (candidate_keys self).length ∧
      ((candidate_keys self).length ≤ n →
        (randomly_select_recipes self n d).toFinset =
            ((candidate_keys self).map Prod.fst).toFinset ∧
          (randomly_select_recipes self n d).Nodup) := by
  have hk_le := num_to_select_le self n
  have hlen : (randomly_select_recipes self n d).length = num_to_select self n := by
    simp only [randomly_select_recipes]
    rw [List.length_map, rrun_length, List.length_take]
    omega
  constructor
  · rw [hlen]; unfold num_to_select; split <;> omega
  · intro h
    have hk : num_to_select self n = (candidate_keys self).length := by
      unfold num_to_select; split <;> omega
    have hres : randomly_select_recipes self n d = (candidate_keys self).map Prod.fst := by
      simp only [randomly_select_recipes]
      rw [hk, List.take_length, List.drop_length]
      simp only [rrun]
    have hnodup : ((candidate_keys self).map Prod.fst).Nodup := by
      have hsub : List.Sublist ((candidate_keys self).map Prod.fst)
          (self.inner.map Prod.fst) := (List.filter_sublist _).map Prod.fst
      exact hkeys.sublist hsub
    rw [hres]
    exact ⟨rfl, hnodup⟩

/-- C4 witness: with two candidates and five requested recipes the concrete
selection returns both candidates, each once. -/
theorem select_count_min_witness :
    (randomly_select_recipes demoRecipes 5 []).length =
        min 5 (candidate_keys demoRecipes).length ∧
      ((candidate_keys demoRecipes).length ≤ 5 →
        (randomly_select_recipes demoRecipes 5 []).toFinset =
            ((candidate_keys demoRecipes).map Prod.fst).toFinset ∧
          (randomly_select_recipes demoRecipes 5 []).Nodup) :=
  select_count_min demoRecipes 5 [] (by decide)

/-- C5: the selection never repeats an identifier, and every returned path
is the key of a loaded recipe that passes the filter predicate. -/
theorem select_nodup_and_candidates (self : Recipes) (n : ℕ) (d : List ℕ)
    (hkeys : (self.inner.map Prod.fst).Nodup) :
    (randomly_select_recipes self n d).Nodup ∧
      ∀ p ∈ randomly_select_recipes self n d,
        ∃ r, (p, r) ∈ self.inner ∧ passes_filters self r = true := by
  have hKnodup : ((candidate_keys self).map Prod.fst).Nodup := by
    have hsub : List.Sublist ((candidate_keys self).map Prod.fst)
        (self.inner.map Prod.fst) := (List.filter_sublist _).map Prod.fst
    exact hkeys.sublist hsub
  have hmaps : randomly_select_recipes self n d =
      rrun (((candidate_keys self).map Prod.fst).take (num_to_select self n))
        (((candidate_keys self).map Prod.fst).drop (num_to_select self n)) d := by
    simp only [randomly_select_recipes]
    rw [rrun_map, List.map_take, List.map_drop]
  have hsplit := hKnodup
  rw [← List.take_append_drop (num_to_select self n)
    ((candidate_keys self).map Prod.fst), List.nodup_append] at hsplit
  rcases hsplit with ⟨htake, hdrop, hdisj⟩
  constructor
  · rw [hmaps]
    exact rrun_nodup htake hdrop (fun x hx hmem => hdisj hmem hx)
  · intro p hp
    rw [hmaps] at hp
    have hK : p ∈ (candidate_keys self).map Prod.fst := by
      rcases mem_of_mem_rrun hp with h | h
      · exact List.take_subset _ _ h
      · exact List.drop_subset _ _ h
    rcases List.mem_map.mp hK with ⟨⟨p1, r1⟩, hpr, hfst⟩
    rcases List.mem_filter.mp hpr with ⟨hin, hpass⟩
    subst hfst
    exact ⟨r1, hin, hpass⟩

/-- C5 witness: the concrete selection is duplicate-free and its returned
path is a loaded, filter-passing key. -/
theorem select_nodup_and_candidates_witness :
    (randomly_select_recipes demoRecipes 1 [1]).Nodup ∧
      ∃ r, ("borscht.yaml", r) ∈ demoRecipes.inner ∧
        passes_filters demoRecipes r = true :=
  ⟨(select_nodup_and_candidates demoRecipes 1 [1] (by decide)).1,
    (select_nodup_and_candidates demoRecipes 1 [1] (by decide)).2
      "borscht.yaml" (by decide)⟩

/-- C9 counterexample: two collections with identical loaded contents (equal
as path→recipe sets), identical filter sets, identical requested count and
an identical random trace, presented in the two map iteration orders,
produce different output lists — the selection depends on the map iteration
order, which Rust's HashMap does not determine from the contents (and the
source hard-codes `thread_rng`, so no injectable seed pins it down). -/
theorem map_iteration_order_leaks :
    demoRecipes.inner.toFinset = demoRecipesSwapped.inner.toFinset ∧
      demoRecipes.season_filter = demoRecipesSwapped.season_filter ∧
      demoRecipes.ethnicity_filter = demoRecipesSwapped.ethnicity_filter ∧
      randomly_select_recipes demoRecipes 1 [1] ≠
        randomly_select_recipes demoRecipesSwapped 1 [1] := by
  refine ⟨by decide, rfl, rfl, by decide⟩

/-- C9 amended: the selection is deterministic once the map iteration order
is fixed along with the other inputs — collections that agree as
iteration-ordered lists (not merely as maps), with equal filter sets,
produce identical output lists for every requested count and random trace. -/
theorem select_deterministic (c1 c2 : Recipes) (h1 : c1.inner = c2.inner)
    (h2 : c1.season_filter = c2.season_filter)
    (h3 : c1.ethnicity_filter = c2.ethnicity_filter) (n : ℕ) (d : List ℕ) :
    randomly_select_recipes c1 n d = randomly_select_recipes c2 n d := by
  cases c1; cases c2; cases h1; cases h2; cases h3; rfl

/-- C9 witness: determinism instantiated at the concrete collection. -/
theorem select_deterministic_witness :
    randomly_select_recipes demoRecipes 1 [1] =
      randomly_select_recipes demoRecipes 1 [1] :=
  select_deterministic demoRecipes demoRecipes rfl rfl rfl 1 [1]

/-- All random traces of rand's reservoir loop with `m` elements still to
process after `t` have been consumed: the next draw is produced by
`gen_range(0..t + 1)`, so it is any value below `t + 1`, and each later
draw range grows by one. -/
def drawsSpace : ℕ → ℕ → Finset (List ℕ)
  | _, 0 => {[]}
  | t, m + 1 =>
    (Finset.range (t + 1)).biUnion
      (fun j => (drawsSpace (t + 1) m).image (fun d => j :: d))

/-- Number of random traces under which the reservoir sample of `k`
elements out of the list `l` comes out as exactly the set `S`. -/
def chooseCount {α : Type} [DecidableEq α] (k : ℕ) (l : List α)
    (S : Finset α) : ℕ :=
  ((drawsSpace k (l.length - k)).filter
    (fun d => (rrun (l.take k) (l.drop k) d).toFinset = S)).card

/-- Number of random traces under which `randomly_select_recipes` returns
exactly the path set `P`. -/
def selectCount (self : Recipes) (num_recipes : ℕ) (P : Finset String) : ℕ :=
  ((drawsSpace (num_to_select self num_recipes)
      ((candidate_keys self).length - num_to_select self num_recipes)).filter
    (fun d => (randomly_select_recipes self num_recipes d).toFinset = P)).card

/-- Traces in the draw space have one draw per remaining element. -/
theorem length_of_mem_drawsSpace {t m : ℕ} {d : List ℕ}
    (h : d ∈ drawsSpace t m) : d.length = m := by
  induction m generalizing t d with
  | zero =>
    simp only [drawsSpace, Finset.mem_singleton] at h
    simp [h]
  | succ m ih =>
    simp only [drawsSpace, Finset.mem_biUnion, Finset.mem_image,
      Finset.mem_range] at h
    rcases h with ⟨j, hj, e, he, rfl⟩
    simp [ih he]

/-- The draw space for one more element decomposes at the back: a trace for
`m + 1` remaining elements is a trace for the first `m` followed by one
final draw below `t + m + 1`. -/
theorem drawsSpace_succ_append (t m : ℕ) :
    drawsSpace t (m + 1) =
      (drawsSpace t m).biUnion
        (fun d => (Finset.range (t + m + 1)).image (fun j => d ++ [j])) := by
  induction m generalizing t with
  | zero =>
    ext x
    simp [drawsSpace, eq_comm]
  | succ m ih =>
    conv_lhs => rw [drawsSpace]
    rw [ih (t + 1)]
    conv_rhs => rw [drawsSpace]
    ext x
    simp only [Finset.mem_biUnion, Finset.mem_image, Finset.mem_range]
    constructor
    · rintro ⟨j, hj, d, ⟨e, he, jl, hjl, rfl⟩, rfl⟩
      exact ⟨j :: e, ⟨j, hj, e, he, rfl⟩, jl, by omega, by simp⟩
    · rintro ⟨d, ⟨j, hj, e, he, rfl⟩, jl, hjl, rfl⟩
      exact ⟨j, hj, e ++ [jl], ⟨e, he, jl, by omega, rfl⟩, by simp⟩

/-- Processing one more element at the end of the stream is one more
reservoir step with the final draw. -/
theorem rrun_append {α : Type} (res l : List α) (a : α) (d : List ℕ)
    (j : ℕ) (h : d.length = l.length) :
    rrun res (l ++ [a]) (d ++ [j]) = rstep (rrun res l d) j a := by
  induction l generalizing res d with
  | nil =>
    have hd : d = [] := List.length_eq_zero.mp (by simpa using h)
    subst hd
    simp [rrun]
  | cons b l ih =>
    cases d with
    | nil => simp at h
    | cons x d0 =>
      simp only [List.cons_append, rrun]
      exact ih (rstep res x b) d0 (by simpa using h)

/-- Overwriting position `j` of a duplicate-free list replaces exactly the
old occupant in the element set. -/
theorem toFinset_set_of_nodup {α : Type} [DecidableEq α] {r : List α}
    {a : α} {j : ℕ} (hr : r.Nodup) (hj : j < r.length) :
    (r.set j a).toFinset = insert a (r.toFinset.erase (r.getD j a)) := by
  induction r generalizing j with
  | nil => simp at hj
  | cons b rs ih =>
    rcases List.nodup_cons.mp hr with ⟨hb, hrs⟩
    cases j with
    | zero =>
      simp only [List.set, List.getD_cons_zero, List.toFinset_cons]
      rw [Finset.erase_insert (by simpa using hb)]
    | succ j =>
      have hj2 : j < rs.length := by simpa using hj
      simp only [List.set, List.getD_cons_succ, List.toFinset_cons]
      rw [ih hrs hj2]
      have hbj : b ≠ rs.getD j a := by
        rw [List.getD_eq_getElem _ _ hj2]
        intro hEq
        exact hb (hEq ▸ List.getElem_mem hj2)
      rw [Finset.erase_insert_of_ne hbj]
      rw [Finset.Insert.comm]

/-- In a duplicate-free list, exactly one position holds a given member. -/
theorem card_positions_of_nodup {α : Type} [DecidableEq α] {r : List α}
    {x : α} (hr : r.Nodup) (hx : x ∈ r) (d0 : α) :
    ((Finset.range r.length).filter (fun j => r.getD j d0 = x)).card = 1 := by
  obtain ⟨i0, hi0, hx0⟩ := List.mem_iff_getElem.mp hx
  rw [Finset.card_eq_one]
  refine ⟨i0, ?_⟩
  ext j
  simp only [Finset.mem_filter, Finset.mem_range, Finset.mem_singleton]
  constructor
  · rintro ⟨hj, hEq⟩
    rw [List.getD_eq_getElem _ _ hj] at hEq
    exact (List.Nodup.getElem_inj_iff hr).mp (hEq.trans hx0.symm)
  · rintro rfl
    exact ⟨hi0, by rw [List.getD_eq_getElem _ _ hi0]; exact hx0⟩

/-- The final reservoir step, counted over all values of the last draw: for
a duplicate-free reservoir of size `k` not containing the incoming element
`a` and a size-`k` target set `S`, the number of draws below `N` that leave
the reservoir set equal to `S` is `N - k` when `a ∉ S` and the reservoir
already equals `S` (the draw must miss every slot), `1` when `a ∈ S` and
the reservoir contains `S` minus `a` (the draw must hit the single slot
holding the element to evict), and `0` otherwise. -/
theorem card_final_draws {α : Type} [DecidableEq α] {r : List α} {a : α}
    {S : Finset α} {k N : ℕ} (hrlen : r.length = k) (hrnd : r.Nodup)
    (har : a ∉ r) (hkN : k ≤ N) (hScard : S.card = k) :
    ((Finset.range N).filter (fun j => (rstep r j a).toFinset = S)).card =
      if a ∈ S then (if S.erase a ⊆ r.toFinset then 1 else 0)
      else (if r.toFinset = S then N - k else 0) := by
  have haT : a ∉ r.toFinset := by simpa using har
  have hTcard : r.toFinset.card = k := by
    rw [List.toFinset_card_of_nodup hrnd, hrlen]
  by_cases haS : a ∈ S
  · have hk1 : 1 ≤ k := by
      have := Finset.card_pos.mpr ⟨a, haS⟩
      omega
    have hAcard : (S.erase a).card = k - 1 := by
      rw [Finset.card_erase_of_mem haS, hScard]
    have hchar : ∀ j, ((rstep r j a).toFinset = S) ↔
        (j < k ∧ r.toFinset.erase (r.getD j a) = S.erase a) := by
      intro j
      by_cases hj : j < k
      · have hjr : j < r.length := by omega
        rw [rstep, if_pos hjr, toFinset_set_of_nodup hrnd hjr]
        constructor
        · intro h
          refine ⟨hj, ?_⟩
          have hand : a ∉ r.toFinset.erase (r.getD j a) :=
            fun hmem => haT (Finset.mem_of_mem_erase hmem)
          rw [← h, Finset.erase_insert hand]
        · rintro ⟨-, h⟩
          rw [h, Finset.insert_erase haS]
      · have hjr : ¬ j < r.length := by omega
        rw [rstep, if_neg hjr]
        constructor
        · intro h
          exact absurd haS (h ▸ haT)
        · rintro ⟨hc, -⟩
          exact absurd hc hj
    rw [if_pos haS]
    by_cases hA : S.erase a ⊆ r.toFinset
    · rw [if_pos hA]
      have hcard1 : (r.toFinset \ (S.erase a)).card = 1 := by
        rw [Finset.card_sdiff hA, hTcard, hAcard]
        omega
      obtain ⟨x0, hx0⟩ := Finset.card_eq_one.mp hcard1
      have hx0m : x0 ∈ r.toFinset \ (S.erase a) := by
        rw [hx0]; exact Finset.mem_singleton_self x0
      have hx0T : x0 ∈ r.toFinset := (Finset.mem_sdiff.mp hx0m).1
      have hx0A : x0 ∉ S.erase a := (Finset.mem_sdiff.mp hx0m).2
      have hTeq : r.toFinset = insert x0 (S.erase a) := by
        rw [Finset.insert_eq, Finset.union_comm, ← hx0,
          Finset.union_sdiff_of_subset hA]
      have hchar2 : ∀ j, ((rstep r j a).toFinset = S) ↔
          (j < k ∧ r.getD j a = x0) := by
        intro j
        rw [hchar j]
        constructor
        · rintro ⟨hj, hEq⟩
          refine ⟨hj, ?_⟩
          by_contra hne
          have hx0e : x0 ∈ r.toFinset.erase (r.getD j a) :=
            Finset.mem_erase.mpr ⟨fun h => hne h.symm, hx0T⟩
          rw [hEq] at hx0e
          exact hx0A hx0e
        · rintro ⟨hj, hEq⟩
          refine ⟨hj, ?_⟩
          rw [hEq, hTeq, Finset.erase_insert hx0A]
      have hfe : (Finset.range N).filter
            (fun j => (rstep r j a).toFinset = S) =
          (Finset.range r.length).filter (fun j => r.getD j a = x0) := by
        ext j
        simp only [Finset.mem_filter, Finset.mem_range]
        rw [hchar2 j]
        constructor
        · rintro ⟨hjN, hj, hEq⟩
          exact ⟨by omega, hEq⟩
        · rintro ⟨hj, hEq⟩
          exact ⟨by omega, by omega, hEq⟩
      rw [hfe]
      exact card_positions_of_nodup hrnd (List.mem_toFinset.mp hx0T) a
    · rw [if_neg hA]
      rw [Finset.card_eq_zero, Finset.filter_eq_empty_iff]
      intro j hj hEq
      rw [hchar j] at hEq
      obtain ⟨hjk, hfe⟩ := hEq
      exact hA (by rw [← hfe]; exact Finset.erase_subset _ _)
  · rw [if_neg haS]
    have hchar : ∀ j, ((rstep r j a).toFinset = S) ↔
        (k ≤ j ∧ r.toFinset = S) := by
      intro j
      by_cases hj : j < k
      · have hjr : j < r.length := by omega
        rw [rstep, if_pos hjr]
        constructor
        · intro h
          exfalso
          apply haS
          rw [← h, toFinset_set_of_nodup hrnd hjr]
          exact Finset.mem_insert_self _ _
        · rintro ⟨hc, -⟩
          omega
      · rw [rstep, if_neg (show ¬ j < r.length by omega)]
        constructor
        · intro h
          exact ⟨by omega, h⟩
        · rintro ⟨-, h⟩
          exact h
    by_cases hT : r.toFinset = S
    · rw [if_pos hT]
      have hfe : (Finset.range N).filter
            (fun j => (rstep r j a).toFinset = S) = Finset.Ico k N := by
        ext j
        simp only [Finset.mem_filter, Finset.mem_range, Finset.mem_Ico]
        rw [hchar j]
        constructor
        · rintro ⟨h1, h2, -⟩
          exact ⟨h2, h1⟩
        · rintro ⟨h1, h2⟩
          exact ⟨h2, h1, hT⟩
      rw [hfe, Nat.card_Ico]
    · rw [if_neg hT]
      rw [Finset.card_eq_zero, Finset.filter_eq_empty_iff]
      intro j hj hEq
      rw [hchar j] at hEq
      exact hT hEq.2

/-- Algorithm R is uniform: over a duplicate-free candidate list of length
`k + m`, every size-`k` subset of the candidates is produced by exactly
`m!` random traces, independently of the subset and of the list order. -/
theorem chooseCount_uniform {α : Type} [DecidableEq α] (k : ℕ) :
    ∀ (m : ℕ) (l : List α) (S : Finset α), l.Nodup → l.length = k + m →
      S ⊆ l.toFinset → S.card = k → chooseCount k l S = m.factorial := by
  intro m
  induction m with
  | zero =>
    intro l S hl hlen hSsub hScard
    have hS : S = l.toFinset := by
      apply Finset.eq_of_subset_of_card_le hSsub
      rw [List.toFinset_card_of_nodup hl]
      omega
    unfold chooseCount
    have h0 : l.length - k = 0 := by omega
    have htake : l.take k = l := List.take_of_length_le (by omega)
    have hdrop : l.drop k = [] := List.drop_eq_nil_of_le (by omega)
    rw [h0, htake, hdrop]
    simp only [drawsSpace]
    rw [Finset.filter_singleton, if_pos]
    · simp
    · show (rrun l [] []).toFinset = S
      rw [hS]
      simp only [rrun]
  | succ m ih =>
    intro l S hl hlen hSsub hScard
    obtain ⟨l0, a, rfl⟩ : ∃ l0 a, l = l0 ++ [a] := by
      rcases l.eq_nil_or_concat with h | ⟨l0, a, h⟩
      · subst h; simp at hlen; omega
      · exact ⟨l0, a, by simpa [List.concat_eq_append] using h⟩
    have hlen0 : l0.length = k + m := by
      simp only [List.length_append, List.length_singleton] at hlen
      omega
    have hk0 : k ≤ l0.length := by omega
    rw [List.nodup_append] at hl
    obtain ⟨hl0, -, hdisj⟩ := hl
    have ha : a ∉ l0 := fun h => hdisj h (by simp)
    have htake : (l0 ++ [a]).take k = l0.take k :=
      List.take_append_of_le_length hk0
    have hdrop : (l0 ++ [a]).drop k = l0.drop k ++ [a] :=
      List.drop_append_of_le_length hk0
    have hm : (l0 ++ [a]).length - k = m + 1 := by
      simp only [List.length_append, List.length_singleton]
      omega
    have hm0 : l0.length - k = m := by omega
    have hsplit := hl0
    rw [← List.take_append_drop k l0, List.nodup_append] at hsplit
    obtain ⟨htknd, hdrnd, htkdisj⟩ := hsplit
    have hR : ∀ d : List ℕ,
        (rrun (l0.take k) (l0.drop k) d).length = k ∧
          (rrun (l0.take k) (l0.drop k) d).Nodup ∧
          (∀ x ∈ rrun (l0.take k) (l0.drop k) d, x ∈ l0) ∧
          a ∉ rrun (l0.take k) (l0.drop k) d := by
      intro d
      refine ⟨?_, ?_, ?_, ?_⟩
      · rw [rrun_length, List.length_take]
        omega
      · exact rrun_nodup htknd hdrnd (fun x hx hmem => htkdisj hmem hx)
      · intro x hx
        rcases mem_of_mem_rrun hx with h | h
        · exact List.take_subset _ _ h
        · exact List.drop_subset _ _ h
      · intro hmem
        rcases mem_of_mem_rrun hmem with h | h
        · exact ha (List.take_subset _ _ h)
        · exact ha (List.drop_subset _ _ h)
    have hdisjU : ∀ d1 ∈ drawsSpace k m, ∀ d2 ∈ drawsSpace k m, d1 ≠ d2 →
        Disjoint
          (Finset.filter
            (fun d => (rrun (l0.take k) (l0.drop k ++ [a]) d).toFinset = S)
            ((Finset.range (k + m + 1)).image (fun j => d1 ++ [j])))
          (Finset.filter
            (fun d => (rrun (l0.take k) (l0.drop k ++ [a]) d).toFinset = S)
            ((Finset.range (k + m + 1)).image (fun j => d2 ++ [j]))) := by
      intro d1 h1 d2 h2 hne
      apply Finset.disjoint_left.mpr
      intro x hx1 hx2
      simp only [Finset.mem_filter, Finset.mem_image, Finset.mem_range]
        at hx1 hx2
      obtain ⟨⟨j1, hj1, rfl⟩, -⟩ := hx1
      obtain ⟨⟨j2, hj2, hEq⟩, -⟩ := hx2
      have hl12 : d2.length = d1.length := by
        rw [length_of_mem_drawsSpace h1, length_of_mem_drawsSpace h2]
      exact hne ((List.append_inj hEq hl12).1).symm
    have hsummand : ∀ d ∈ drawsSpace k m,
        (Finset.filter
            (fun e => (rrun (l0.take k) (l0.drop k ++ [a]) e).toFinset = S)
            ((Finset.range (k + m + 1)).image (fun j => d ++ [j]))).card =
          if a ∈ S then
            (if S.erase a ⊆ (rrun (l0.take k) (l0.drop k) d).toFinset
              then 1 else 0)
          else
            (if (rrun (l0.take k) (l0.drop k) d).toFinset = S
              then (k + m + 1) - k else 0) := by
      intro d hd
      have hinj : Function.Injective (fun j : ℕ => d ++ [j]) := by
        intro j1 j2 h
        simpa using List.append_cancel_left h
      rw [Finset.filter_image, Finset.card_image_of_injective _ hinj]
      have hdlen : d.length = (l0.drop k).length := by
        rw [length_of_mem_drawsSpace hd, List.length_drop]
        omega
      have hfe : Finset.filter
            (fun j => (rrun (l0.take k) (l0.drop k ++ [a]) (d ++ [j])).toFinset = S)
            (Finset.range (k + m + 1)) =
          Finset.filter
            (fun j => (rstep (rrun (l0.take k) (l0.drop k) d) j a).toFinset = S)
            (Finset.range (k + m + 1)) :=
        Finset.filter_congr (fun j _ => by rw [rrun_append _ _ _ _ _ hdlen])
      rw [hfe]
      obtain ⟨hRlen, hRnd, hRsub, haR⟩ := hR d
      exact card_final_draws hRlen hRnd haR (by omega) hScard
    unfold chooseCount
    rw [hm, htake, hdrop, drawsSpace_succ_append, Finset.filter_biUnion,
      Finset.card_biUnion hdisjU, Finset.sum_congr rfl hsummand]
    by_cases haS : a ∈ S
    · simp only [if_pos haS]
      rw [← Finset.card_filter]
      have hk1 : 1 ≤ k := by
        have := Finset.card_pos.mpr ⟨a, haS⟩
        omega
      have hAcard : (S.erase a).card = k - 1 := by
        rw [Finset.card_erase_of_mem haS, hScard]
      have hAsub : S.erase a ⊆ l0.toFinset := by
        intro x hx
        have hxS : x ∈ S := Finset.mem_of_mem_erase hx
        have hxa : x ≠ a := Finset.ne_of_mem_erase hx
        have hx2 : x ∈ l0.toFinset ∪ [a].toFinset := by
          rw [← List.toFinset_append]; exact hSsub hxS
        rcases Finset.mem_union.mp hx2 with h | h
        · exact h
        · exact absurd (by simpa using h) hxa
      have hsplitF : Finset.filter
            (fun d => S.erase a ⊆ (rrun (l0.take k) (l0.drop k) d).toFinset)
            (drawsSpace k m) =
          (l0.toFinset \ S.erase a).biUnion (fun x =>
            Finset.filter
              (fun d => (rrun (l0.take k) (l0.drop k) d).toFinset =
                insert x (S.erase a))
              (drawsSpace k m)) := by
        ext d
        simp only [Finset.mem_filter, Finset.mem_biUnion, Finset.mem_sdiff]
        constructor
        · rintro ⟨hd, hsub⟩
          obtain ⟨hRlen, hRnd, hRsub, haR⟩ := hR d
          have hTcard : (rrun (l0.take k) (l0.drop k) d).toFinset.card = k := by
            rw [List.toFinset_card_of_nodup hRnd, hRlen]
          have hc1 : ((rrun (l0.take k) (l0.drop k) d).toFinset \
              S.erase a).card = 1 := by
            rw [Finset.card_sdiff hsub, hTcard, hAcard]
            omega
          obtain ⟨x0, hx0⟩ := Finset.card_eq_one.mp hc1
          have hx0m : x0 ∈ (rrun (l0.take k) (l0.drop k) d).toFinset \
              S.erase a := by
            rw [hx0]; exact Finset.mem_singleton_self x0
          have hx0T := (Finset.mem_sdiff.mp hx0m).1
          have hx0A := (Finset.mem_sdiff.mp hx0m).2
          have hTeq : (rrun (l0.take k) (l0.drop k) d).toFinset =
              insert x0 (S.erase a) := by
            rw [Finset.insert_eq, Finset.union_comm, ← hx0,
              Finset.union_sdiff_of_subset hsub]
          exact ⟨x0, ⟨List.mem_toFinset.mpr
            (hRsub x0 (List.mem_toFinset.mp hx0T)), hx0A⟩, hd, hTeq⟩
        · rintro ⟨x, ⟨hx1, hx2⟩, hd, hTeq⟩
          refine ⟨hd, ?_⟩
          rw [hTeq]
          exact Finset.subset_insert _ _
      have hdisjB : ∀ x1 ∈ l0.toFinset \ S.erase a,
          ∀ x2 ∈ l0.toFinset \ S.erase a, x1 ≠ x2 →
          Disjoint
            (Finset.filter
              (fun d => (rrun (l0.take k) (l0.drop k) d).toFinset =
                insert x1 (S.erase a)) (drawsSpace k m))
            (Finset.filter
              (fun d => (rrun (l0.take k) (l0.drop k) d).toFinset =
                insert x2 (S.erase a)) (drawsSpace k m)) := by
        intro x1 hx1 x2 hx2 hne
        apply Finset.disjoint_left.mpr
        intro d hd1 hd2
        simp only [Finset.mem_filter] at hd1 hd2
        have hins : insert x1 (S.erase a) = insert x2 (S.erase a) := by
          rw [← hd1.2, hd2.2]
        have hx1m : x1 ∈ insert x2 (S.erase a) :=
          hins ▸ Finset.mem_insert_self x1 _
        rcases Finset.mem_insert.mp hx1m with h | h
        · exact hne h
        · exact (Finset.mem_sdiff.mp hx1).2 h
      have hxcount : ∀ x ∈ l0.toFinset \ S.erase a,
          (Finset.filter
            (fun d => (rrun (l0.take k) (l0.drop k) d).toFinset =
              insert x (S.erase a)) (drawsSpace k m)).card = m.factorial := by
        intro x hx
        obtain ⟨hxl, hxA⟩ := Finset.mem_sdiff.mp hx
        have hsubI : insert x (S.erase a) ⊆ l0.toFinset := by
          intro y hy
          rcases Finset.mem_insert.mp hy with rfl | hy2
          · exact hxl
          · exact hAsub hy2
        have hcardI : (insert x (S.erase a)).card = k := by
          rw [Finset.card_insert_of_not_mem hxA, hAcard]
          omega
        have hI := ih l0 (insert x (S.erase a)) hl0 hlen0 hsubI hcardI
        unfold chooseCount at hI
        rw [hm0] at hI
        exact hI
      rw [hsplitF, Finset.card_biUnion hdisjB,
        Finset.sum_congr rfl hxcount, Finset.sum_const, smul_eq_mul]
      have hcardsd : (l0.toFinset \ S.erase a).card = m + 1 := by
        rw [Finset.card_sdiff hAsub, List.toFinset_card_of_nodup hl0,
          hlen0, hAcard]
        omega
      rw [hcardsd, Nat.factorial_succ]
    · simp only [if_neg haS,
        show k + m + 1 - k = m + 1 from by omega]
      rw [Finset.sum_ite, Finset.sum_const, Finset.sum_const_zero, add_zero,
        smul_eq_mul]
      have hSsub0 : S ⊆ l0.toFinset := by
        intro x hx
        have hx2 : x ∈ l0.toFinset ∪ [a].toFinset := by
          rw [← List.toFinset_append]; exact hSsub hx
        rcases Finset.mem_union.mp hx2 with h | h
        · exact h
        · have hxa : x = a := by simpa using h
          exact absurd (hxa ▸ hx) haS
      have hI := ih l0 S hl0 hlen0 hSsub0 hScard
      unfold chooseCount at hI
      rw [hm0] at hI
      rw [hI, Nat.factorial_succ]
      exact Nat.mul_comm _ _

/-- C8: uniform sampling without replacement, unbiased by iteration order.
With `M` candidates and `k = num_to_select = min(requested, M)`, every
size-`k` set `P` of candidate paths is returned by exactly `(M - k)!` of
the equally-likely random traces — a number independent of `P`, so every
size-`k` subset of the candidate set is equally likely — and the trace
count is unchanged under any reordering of the candidate key list, so the
distribution is not biased by the iteration order of the underlying map. -/
theorem select_uniform (self : Recipes) (n : ℕ) (P : Finset String)
    (hkeys : ((candidate_keys self).map Prod.fst).Nodup)
    (hP : P ⊆ ((candidate_keys self).map Prod.fst).toFinset)
    (hcard : P.card = num_to_select self n) :
    selectCount self n P =
        ((candidate_keys self).length - num_to_select self n).factorial ∧
      ∀ l2 : List String, l2.Nodup →
        l2.toFinset = ((candidate_keys self).map Prod.fst).toFinset →
        chooseCount (num_to_select self n) l2 P =
          chooseCount (num_to_select self n)
            ((candidate_keys self).map Prod.fst) P := by
  have hKlen : ((candidate_keys self).map Prod.fst).length =
      (candidate_keys self).length := List.length_map _ _
  have hkle := num_to_select_le self n
  have hsel : ∀ d, randomly_select_recipes self n d =
      rrun (((candidate_keys self).map Prod.fst).take (num_to_select self n))
        (((candidate_keys self).map Prod.fst).drop (num_to_select self n)) d := by
    intro d
    simp only [randomly_select_recipes]
    rw [rrun_map, List.map_take, List.map_drop]
  have hmain : chooseCount (num_to_select self n)
      ((candidate_keys self).map Prod.fst) P =
      ((candidate_keys self).length - num_to_select self n).factorial := by
    apply chooseCount_uniform (num_to_select self n)
      ((candidate_keys self).length - num_to_select self n) _ _ hkeys _ hP hcard
    rw [hKlen]
    omega
  constructor
  · have hfe : selectCount self n P = chooseCount (num_to_select self n)
        ((candidate_keys self).map Prod.fst) P := by
      unfold selectCount chooseCount
      rw [hKlen]
      congr 1
      exact Finset.filter_congr (fun d _ => by rw [hsel d])
    rw [hfe, hmain]
  · intro l2 hl2nd hl2fs
    have hl2len : l2.length = (candidate_keys self).length := by
      rw [← List.toFinset_card_of_nodup hl2nd, hl2fs,
        List.toFinset_card_of_nodup hkeys, hKlen]
    have h2 : chooseCount (num_to_select self n) l2 P =
        ((candidate_keys self).length - num_to_select self n).factorial := by
      apply chooseCount_uniform (num_to_select self n)
        ((candidate_keys self).length - num_to_select self n) _ _ hl2nd _ _ hcard
      · rw [hl2len]
        omega
      · rw [hl2fs]
        exact hP
    rw [h2, hmain]

/-- C8 witness: in the concrete two-candidate collection with one recipe
requested, the path set containing only `borscht.yaml` is produced by
exactly `1! = 1` trace, and reordering the candidate keys leaves the trace
count unchanged. -/
theorem select_uniform_witness :
    selectCount demoRecipes 1 {"borscht.yaml"} =
        ((candidate_keys demoRecipes).length -
          num_to_select demoRecipes 1).factorial ∧
      chooseCount (num_to_select demoRecipes 1) ["tacos.yaml", "borscht.yaml"]
          {"borscht.yaml"} =
        chooseCount (num_to_select demoRecipes 1)
          ((candidate_keys demoRecipes).map Prod.fst) {"borscht.yaml"} :=
  ⟨(select_uniform demoRecipes 1 {"borscht.yaml"} (by decide) (by decide)
      (by decide)).1,
    (select_uniform demoRecipes 1 {"borscht.yaml"} (by decide) (by decide)
      (by decide)).2 ["tacos.yaml", "borscht.yaml"] (by decide) (by decide)⟩
